import Mathlib

/-!
Verification of the SnapPwd CLI cryptographic envelope layer
(`src/crypto.ts`): the base-58 codec, key generation, and the
AES-GCM seal/open operations `encryptData` / `decryptData`.

Bytes are modelled as `List Nat` with values `< 256`; base-58 digit
arrays as `List Nat` with values `< 58`.  The digit-accumulator loops
of `base58Encode` / `base58Decode` are translated statement by
statement from the source; both share the same shape (multiply the
accumulated number by a constant, add a value, redistribute carries),
so they are instances of one generic conversion step.

External collaborators (Web Crypto AES-GCM, `TextEncoder`/`TextDecoder`,
Node `Buffer` base-64) are modelled at their interface: the AEAD and the
text codec are explicit parameters, base-64 is the standard RFC 4648
encoding with Node's never-failing lenient decode.
-/

namespace SnapPwd

/-- The base-58 alphabet from the source:
`"123456789ABCDEFGHJKLMNPQRSTUVWXYZabcdefghijkmnopqrstuvwxyz"`. -/
def b58chars : List Char :=
  ['1','2','3','4','5','6','7','8','9',
   'A','B','C','D','E','F','G','H','J','K','L','M','N','P','Q','R','S','T',
   'U','V','W','X','Y','Z',
   'a','b','c','d','e','f','g','h','i','j','k','m','n','o','p','q','r','s',
   't','u','v','w','x','y','z']

/-- Character at digit index, `BASE58_ALPHABET[d]` in the source. -/
def b58chr (d : Nat) : Char := b58chars.getD d '1'

/-- First index of a character in a character list; models the
precomputed `BASE58_MAP` lookup (`undefined` becomes `none`). -/
def charIndex (cs : List Char) (c : Char) : Option Nat :=
  match cs with
  | [] => none
  | x :: t => if x = c then some 0 else (charIndex t c).map (· + 1)

/-- `BASE58_MAP[c]`: digit value of a base-58 character. -/
def b58val (c : Char) : Option Nat := charIndex b58chars c

/-- One pass of the inner carry loop shared by `base58Encode` and
`base58Decode`: walk the digit array once, at each position folding in
`digit * mul` and emitting `carry % base`, threading `carry / base`.
Returns the updated positions and the leftover carry. -/
def convScan (mul base : Nat) : Nat → List Nat → List Nat × Nat
  | carry, [] => ([], carry)
  | carry, d :: ds =>
    let c := carry + d * mul
    let r := convScan mul base (c / base) ds
    (c % base :: r.1, r.2)

/-- The `while (carry > 0)` push loop, written with explicit fuel so
that it is structurally recursive (the fuel `c` always suffices since
`c / base < c` for `base ≥ 2`). -/
def convPushAux (base : Nat) : Nat → Nat → List Nat
  | 0, _ => []
  | fuel + 1, c => if c = 0 then [] else c % base :: convPushAux base fuel (c / base)

/-- Drain a carry into little-endian digits, `while (carry > 0) push`. -/
def convPush (base c : Nat) : List Nat := convPushAux base c c

/-- Process one input value: scan the digit array, then push the
leftover carry. -/
def convStep (mul base : Nat) (digits : List Nat) (v : Nat) : List Nat :=
  let r := convScan mul base v digits
  r.1 ++ convPush base r.2

/-- The whole accumulator loop, starting from the singleton array
`[0]` exactly as the source does. -/
def convFold (mul base : Nat) (vals : List Nat) : List Nat :=
  vals.foldl (convStep mul base) [0]

/-- Number of leading zero bytes (the first loop of the encoder's
"Handle leading zeros" section). -/
def leadingZeroCount : List Nat → Nat
  | [] => 0
  | b :: t => if b = 0 then leadingZeroCount t + 1 else 0

/-- Number of leading `'1'` characters, `str.match(^1*)` in the
decoder. -/
def leadingOneCount : List Char → Nat
  | [] => 0
  | c :: t => if c = '1' then leadingOneCount t + 1 else 0

/-- Encode a byte sequence to base-58, translated from
`base58Encode`: one `'1'` per leading zero byte, then the accumulated
digit array most-significant first. -/
def base58Encode (bytes : List Nat) : String :=
  String.mk (List.replicate (leadingZeroCount bytes) '1'
    ++ (convFold 256 58 bytes).reverse.map b58chr)

/-- Look up every character's digit value; the first character outside
the alphabet aborts the whole decode (the source throws
"Invalid base58 character"). -/
def mapVals : List Char → Option (List Nat)
  | [] => some []
  | c :: t =>
    match b58val c, mapVals t with
    | some v, some vs => some (v :: vs)
    | _, _ => none

/-- Decode a base-58 string to bytes, translated from `base58Decode`:
leading `'1'`s become leading zero bytes, the rest accumulates through
the multiply-by-58 loop, emitted most-significant first. -/
def base58Decode (s : String) : Option (List Nat) :=
  match mapVals s.toList with
  | none => none
  | some vals =>
    some (List.replicate (leadingOneCount s.toList) 0
      ++ (convFold 58 256 vals).reverse)

/-- `generateEncryptionKey`: base-58 encoding of the 16 random bytes
drawn from `crypto.getRandomValues(new Uint8Array(16))`; the random
draw is the explicit argument. -/
def generateEncryptionKey (randomBytes : List Nat) : String :=
  base58Encode randomBytes

/-- Value of a little-endian digit array in the given base. -/
def digitsVal (base : Nat) : List Nat → Nat
  | [] => 0
  | d :: ds => d + base * digitsVal base ds

/-- Value of a big-endian digit array: fold multiply-and-add. -/
def beVal (mul : Nat) (vals : List Nat) : Nat :=
  vals.foldl (fun a v => a * mul + v) 0

/-- The scan emits one digit per input position. -/
theorem convScan_fst_length (mul base : Nat) :
    ∀ (ds : List Nat) (c : Nat), ((convScan mul base c ds).1).length = ds.length := by
  intro ds
  induction ds with
  | nil => intro c; rfl
  | cons d t ih => intro c; simp [convScan, ih]

/-- The scan redistributes value exactly: emitted digits plus the
leftover carry (weighted past the end) account for the incoming carry
plus `mul` times the array's old value. -/
theorem convScan_spec (mul base : Nat) :
    ∀ (ds : List Nat) (c : Nat),
      digitsVal base (convScan mul base c ds).1
        + base ^ ds.length * (convScan mul base c ds).2
      = c + mul * digitsVal base ds := by
  intro ds
  induction ds with
  | nil => intro c; simp [convScan, digitsVal]
  | cons d t ih =>
    intro c
    have h := ih ((c + d * mul) / base)
    simp only [convScan, digitsVal, List.length_cons]
    have hmod : (c + d * mul) % base + base * ((c + d * mul) / base) = c + d * mul :=
      Nat.mod_add_div _ _
    calc (c + d * mul) % base + base * digitsVal base (convScan mul base ((c + d * mul) / base) t).1
          + base ^ (t.length + 1) * (convScan mul base ((c + d * mul) / base) t).2
        = (c + d * mul) % base
            + base * (digitsVal base (convScan mul base ((c + d * mul) / base) t).1
              + base ^ t.length * (convScan mul base ((c + d * mul) / base) t).2) := by
          ring
      _ = (c + d * mul) % base + base * ((c + d * mul) / base + mul * digitsVal base t) := by
          rw [h]
      _ = ((c + d * mul) % base + base * ((c + d * mul) / base)) + base * (mul * digitsVal base t) := by
          ring
      _ = c + mul * (d + base * digitsVal base t) := by rw [hmod]; ring

/-- The push loop drains the carry faithfully, digit by digit. -/
theorem convPushAux_val (base : Nat) (h2 : 2 ≤ base) :
    ∀ (fuel c : Nat), c ≤ fuel → digitsVal base (convPushAux base fuel c) = c := by
  intro fuel
  induction fuel with
  | zero => intro c hc; interval_cases c; rfl
  | succ n ih =>
    intro c hc
    by_cases h0 : c = 0
    · subst h0; simp [convPushAux, digitsVal]
    · have hdiv : c / base < c := Nat.div_lt_self (Nat.pos_of_ne_zero h0) (by omega)
      have := ih (c / base) (by omega)
      simp only [convPushAux, if_neg h0, digitsVal, this]
      exact Nat.mod_add_div _ _

/-- Value of the pushed carry. -/
theorem convPush_val (base : Nat) (h2 : 2 ≤ base) (c : Nat) :
    digitsVal base (convPush base c) = c :=
  convPushAux_val base h2 c c le_rfl

/-- Little-endian value splits over append with a positional weight. -/
theorem digitsVal_append (base : Nat) :
    ∀ (xs ys : List Nat),
      digitsVal base (xs ++ ys) = digitsVal base xs + base ^ xs.length * digitsVal base ys := by
  intro xs ys
  induction xs with
  | nil => simp [digitsVal]
  | cons x t ih => simp [digitsVal, ih]; ring

/-- One accumulator step multiplies the stored value by `mul` and adds
the incoming value. -/
theorem convStep_val (mul base : Nat) (h2 : 2 ≤ base) (ds : List Nat) (v : Nat) :
    digitsVal base (convStep mul base ds v) = v + mul * digitsVal base ds := by
  unfold convStep
  rw [digitsVal_append, convPush_val base h2, convScan_fst_length mul base ds v,
    convScan_spec]

/-- The full fold computes the big-endian value of the input. -/
theorem convFold_val (mul base : Nat) (h2 : 2 ≤ base) (vals : List Nat) :
    digitsVal base (convFold mul base vals) = beVal mul vals := by
  suffices h : ∀ (vs : List Nat) (ds : List Nat),
      digitsVal base (vs.foldl (convStep mul base) ds)
        = vs.foldl (fun a v => a * mul + v) (digitsVal base ds) by
    have := h vals [0]
    simpa [convFold, beVal, digitsVal] using this
  intro vs
  induction vs with
  | nil => intro ds; rfl
  | cons v t ih =>
    intro ds
    simp only [List.foldl_cons, ih, convStep_val mul base h2]
    congr 1
    ring

/-- Every digit the scan emits is a remainder modulo `base`. -/
theorem convScan_fst_lt (mul base : Nat) (h0 : 0 < base) :
    ∀ (ds : List Nat) (c : Nat) (d : Nat), d ∈ (convScan mul base c ds).1 → d < base := by
  intro ds
  induction ds with
  | nil => intro c d hd; simp [convScan] at hd
  | cons x t ih =>
    intro c d hd
    simp only [convScan, List.mem_cons] at hd
    rcases hd with h | h
    · subst h; exact Nat.mod_lt _ h0
    · exact ih _ d h

/-- Every digit the push loop emits is a remainder modulo `base`. -/
theorem convPushAux_lt (base : Nat) (h0 : 0 < base) :
    ∀ (fuel c d : Nat), d ∈ convPushAux base fuel c → d < base := by
  intro fuel
  induction fuel with
  | zero => intro c d hd; simp [convPushAux] at hd
  | succ n ih =>
    intro c d hd
    by_cases h : c = 0
    · subst h; simp [convPushAux] at hd
    · simp only [convPushAux, if_neg h, List.mem_cons] at hd
      rcases hd with h | h
      · subst h; exact Nat.mod_lt _ h0
      · exact ih _ d h

/-- Digits of the accumulator step stay below the base. -/
theorem convStep_lt (mul base : Nat) (h0 : 0 < base) (ds : List Nat) (v d : Nat)
    (hd : d ∈ convStep mul base ds v) : d < base := by
  unfold convStep at hd
  rcases List.mem_append.1 hd with h | h
  · exact convScan_fst_lt mul base h0 ds v d h
  · exact convPushAux_lt base h0 _ _ d h

/-- Digits of the whole fold stay below the base. -/
theorem convFold_lt (mul base : Nat) (h2 : 2 ≤ base) (vals : List Nat) :
    ∀ d ∈ convFold mul base vals, d < base := by
  suffices h : ∀ (vs ds : List Nat), (∀ d ∈ ds, d < base) →
      ∀ d ∈ vs.foldl (convStep mul base) ds, d < base by
    exact h vals [0] (by intro d hd; simp at hd; omega)
  intro vs
  induction vs with
  | nil => intro ds hds; exact hds
  | cons v t ih =>
    intro ds hds d hd
    exact ih (convStep mul base ds v)
      (fun x hx => convStep_lt mul base (by omega) ds v x hx) d hd

/-- A canonical digit array: nonempty, and vanishing only as the
singleton `[0]` (the most-significant digit is never a spurious zero). -/
def CanonDigits (ds : List Nat) : Prop :=
  ds ≠ [] ∧ (ds = [0] ∨ ds.getLast? ≠ some 0)

/-- The scan emits nothing only on empty input. -/
theorem convScan_fst_ne_nil (mul base : Nat) (ds : List Nat) (c : Nat) (h : ds ≠ []) :
    (convScan mul base c ds).1 ≠ [] := by
  intro hnil
  have := convScan_fst_length mul base ds c
  rw [hnil] at this
  exact h (List.length_eq_zero.1 this.symm)

/-- Feeding a zero carry into the push loop produces nothing. -/
theorem convPushAux_zero (base : Nat) : ∀ fuel, convPushAux base fuel 0 = [] := by
  intro fuel
  cases fuel with
  | zero => rfl
  | succ n => simp [convPushAux]

/-- A drained positive carry ends in a nonzero digit. -/
theorem convPushAux_getLast (base : Nat) (h2 : 2 ≤ base) :
    ∀ (fuel c : Nat), c ≤ fuel → c ≠ 0 →
      convPushAux base fuel c ≠ [] ∧ (convPushAux base fuel c).getLast? ≠ some 0 := by
  intro fuel
  induction fuel with
  | zero => intro c hc h0; omega
  | succ n ih =>
    intro c hc h0
    have hdiv : c / base < c := Nat.div_lt_self (Nat.pos_of_ne_zero h0) (by omega)
    have hcons : convPushAux base (n + 1) c
        = c % base :: convPushAux base n (c / base) := by
      simp [convPushAux, h0]
    by_cases hq : c / base = 0
    · have hlt : c < base := by
        rcases Nat.lt_or_ge c base with h | h
        · exact h
        · exact absurd hq (by
            have : 0 < c / base := Nat.div_pos h (by omega)
            omega)
      have hmod : c % base = c := Nat.mod_eq_of_lt hlt
      rw [hcons, hq, convPushAux_zero]
      constructor
      · simp
      · rw [show ([c % base] : List Nat).getLast? = some (c % base) from rfl]
        simp only [ne_eq, Option.some.injEq]
        omega
    · obtain ⟨hne, hlast⟩ := ih (c / base) (by omega) hq
      rw [hcons]
      refine ⟨by simp, ?_⟩
      obtain ⟨y, ys, hys⟩ := List.exists_cons_of_ne_nil hne
      rw [hys]
      rw [hys] at hlast
      rwa [List.getLast?_cons_cons]

/-- If the scan finishes with no carry and the incoming top digit was
nonzero, the outgoing top digit is also nonzero: the stored value only
grows. -/
theorem convScan_getLast (mul base : Nat) (h2 : 2 ≤ base) (hmul : 1 ≤ mul) :
    ∀ (ds : List Nat) (c : Nat), ds.getLast? ≠ some 0 → ds ≠ [] →
      (convScan mul base c ds).2 = 0 →
      (convScan mul base c ds).1.getLast? ≠ some 0 := by
  intro ds
  induction ds with
  | nil => intro c _ h; exact absurd rfl h
  | cons d t ih =>
    intro c hlast _ hfin
    have hsc : convScan mul base c (d :: t)
        = ((c + d * mul) % base :: (convScan mul base ((c + d * mul) / base) t).1,
           (convScan mul base ((c + d * mul) / base) t).2) := rfl
    match t, hlast, ih with
    | [], hlast, _ =>
      have hd : d ≠ 0 := by
        intro h; exact hlast (by simp [h])
      rw [hsc] at hfin ⊢
      simp only [convScan] at hfin ⊢
      have hv : c + d * mul < base := by
        rcases Nat.lt_or_ge (c + d * mul) base with h | h
        · exact h
        · exact absurd hfin (by
            have : 0 < (c + d * mul) / base := Nat.div_pos h (by omega)
            omega)
      have hmod : (c + d * mul) % base = c + d * mul := Nat.mod_eq_of_lt hv
      rw [show ([(c + d * mul) % base] : List Nat).getLast? = some ((c + d * mul) % base)
        from rfl]
      simp only [ne_eq, Option.some.injEq]
      have hpos : 0 < d * mul := Nat.mul_pos (Nat.pos_of_ne_zero hd) (by omega)
      omega
    | d' :: t', hlast, ih =>
      rw [List.getLast?_cons_cons] at hlast
      rw [hsc] at hfin ⊢
      have hrec := ih ((c + d * mul) / base) hlast (by simp) hfin
      have hne := convScan_fst_ne_nil mul base (d' :: t') ((c + d * mul) / base) (by simp)
      obtain ⟨y, ys, hys⟩ := List.exists_cons_of_ne_nil hne
      rw [hys] at hrec ⊢
      rwa [List.getLast?_cons_cons]

/-- The accumulator step preserves canonicity of the digit array. -/
theorem convStep_canon (mul base : Nat) (h2 : 2 ≤ base) (hmul : 1 ≤ mul)
    (ds : List Nat) (v : Nat) (hc : CanonDigits ds) :
    CanonDigits (convStep mul base ds v) := by
  obtain ⟨hne, hcanon⟩ := hc
  show CanonDigits ((convScan mul base v ds).1 ++ convPush base (convScan mul base v ds).2)
  by_cases hfin : (convScan mul base v ds).2 = 0
  · rw [hfin, show convPush base 0 = [] from rfl, List.append_nil]
    rcases hcanon with h0 | hlast
    · subst h0
      have hsc : (convScan mul base v [0]).1 = [v % base] := by
        simp [convScan]
      have hsc2 : (convScan mul base v [0]).2 = v / base := by
        simp [convScan]
      rw [hsc2] at hfin
      rw [hsc]
      have hv : v < base := by
        rcases Nat.lt_or_ge v base with h | h
        · exact h
        · exact absurd hfin (by
            have : 0 < v / base := Nat.div_pos h (by omega)
            omega)
      have hmod : v % base = v := Nat.mod_eq_of_lt hv
      refine ⟨by simp, ?_⟩
      by_cases hv0 : v = 0
      · left; simp [hmod, hv0]
      · right; simp [hmod, hv0]
    · exact ⟨convScan_fst_ne_nil mul base ds v hne, Or.inr
        (convScan_getLast mul base h2 hmul ds v hlast hne hfin)⟩
  · obtain ⟨hpne, hplast⟩ := convPushAux_getLast base h2 _ _ le_rfl hfin
    have hpne2 : convPush base (convScan mul base v ds).2 ≠ [] := hpne
    have hplast2 : (convPush base (convScan mul base v ds).2).getLast? ≠ some 0 := hplast
    refine ⟨by simp [hpne2], Or.inr ?_⟩
    rw [List.getLast?_append_of_ne_nil _ hpne2]
    exact hplast2

/-- The digit array built by the fold is canonical. -/
theorem convFold_canon (mul base : Nat) (h2 : 2 ≤ base) (hmul : 1 ≤ mul) (vals : List Nat) :
    CanonDigits (convFold mul base vals) := by
  suffices h : ∀ (vs ds : List Nat), CanonDigits ds →
      CanonDigits (vs.foldl (convStep mul base) ds) by
    exact h vals [0] ⟨by simp, Or.inl rfl⟩
  intro vs
  induction vs with
  | nil => intro ds h; exact h
  | cons v t ih =>
    intro ds h
    exact ih _ (convStep_canon mul base h2 hmul ds v h)

/-- A digit array of value zero that does not end in a zero digit is
empty. -/
theorem digitsVal_eq_zero (base : Nat) (h2 : 2 ≤ base) :
    ∀ (l : List Nat), digitsVal base l = 0 → l.getLast? ≠ some 0 → l = [] := by
  intro l
  induction l with
  | nil => intro _ _; rfl
  | cons d t ih =>
    intro hval hlast
    have hd : d = 0 ∧ digitsVal base t = 0 := by
      simp only [digitsVal] at hval
      constructor
      · omega
      · by_contra h
        have : 0 < digitsVal base t := Nat.pos_of_ne_zero h
        nlinarith
    match t, hlast, ih with
    | [], hlast, _ => exact absurd (by simp [hd.1]) hlast
    | d' :: t', hlast, ih =>
      rw [List.getLast?_cons_cons] at hlast
      exact absurd (ih hd.2 hlast) (by simp)

/-- Canonical little-endian digit arrays of equal value are equal
(uniqueness of positional representation). -/
theorem digitsVal_inj (base : Nat) (h2 : 2 ≤ base) :
    ∀ (xs ys : List Nat), (∀ d ∈ xs, d < base) → (∀ d ∈ ys, d < base) →
      xs.getLast? ≠ some 0 → ys.getLast? ≠ some 0 →
      digitsVal base xs = digitsVal base ys → xs = ys := by
  intro xs
  induction xs with
  | nil =>
    intro ys _ hyb _ hylast hval
    exact (digitsVal_eq_zero base h2 ys (by simpa [digitsVal] using hval.symm) hylast).symm
  | cons x xs ih =>
    intro ys hxb hyb hxlast hylast hval
    match ys, hyb, hylast with
    | [], _, _ =>
      exact absurd (digitsVal_eq_zero base h2 (x :: xs)
        (by simpa [digitsVal] using hval) hxlast) (by simp)
    | y :: ys, hyb, hylast =>
      simp only [digitsVal] at hval
      have hx : x < base := hxb x (by simp)
      have hy : y < base := hyb y (by simp)
      have hxy : x = y := by
        have hmx : (x + base * digitsVal base xs) % base = x := by
          rw [Nat.add_mul_mod_self_left, Nat.mod_eq_of_lt hx]
        have hmy : (y + base * digitsVal base ys) % base = y := by
          rw [Nat.add_mul_mod_self_left, Nat.mod_eq_of_lt hy]
        rw [← hmx, ← hmy, hval]
      subst hxy
      have hvtail : digitsVal base xs = digitsVal base ys :=
        Nat.eq_of_mul_eq_mul_left (show 0 < base by omega) (Nat.add_left_cancel hval)
      match xs, ys, hxlast, hylast, ih with
      | [], [], _, _, _ => rfl
      | [], y' :: ys', _, hylast, _ =>
        rw [List.getLast?_cons_cons] at hylast
        exact absurd (digitsVal_eq_zero base h2 (y' :: ys')
          (by simpa [digitsVal] using hvtail.symm) hylast) (by simp)
      | x' :: xs', [], hxlast, _, _ =>
        rw [List.getLast?_cons_cons] at hxlast
        exact absurd (digitsVal_eq_zero base h2 (x' :: xs')
          (by simpa [digitsVal] using hvtail) hxlast) (by simp)
      | x' :: xs', y' :: ys', hxlast, hylast, ih =>
        rw [List.getLast?_cons_cons] at hxlast hylast
        have := ih (y' :: ys') (fun d hd => hxb d (List.mem_cons_of_mem _ hd))
          (fun d hd => hyb d (List.mem_cons_of_mem _ hd)) hxlast hylast hvtail
        rw [this]

/-- Little-endian value equals the big-endian fold of the reversed
digits. -/
theorem digitsVal_eq_beVal_reverse (base : Nat) :
    ∀ (l : List Nat), digitsVal base l = beVal base l.reverse := by
  have haux : ∀ (l : List Nat) (d : Nat), beVal base (l ++ [d]) = beVal base l * base + d := by
    intro l d
    simp [beVal, List.foldl_append]
  intro l
  induction l with
  | nil => rfl
  | cons d t ih =>
    simp only [digitsVal, List.reverse_cons, haux, ← ih]
    ring

/-- Leading zero values do not change the big-endian fold. -/
theorem beVal_replicate_zero_append (mul : Nat) (k : Nat) (l : List Nat) :
    beVal mul (List.replicate k 0 ++ l) = beVal mul l := by
  have hzeros : ∀ (n : Nat), List.foldl (fun a v => a * mul + v) 0 (List.replicate n 0) = 0 := by
    intro n
    induction n with
    | zero => rfl
    | succ m ih => simpa [List.replicate_succ] using ih
  simp [beVal, List.foldl_append, hzeros]

/-- The big-endian fold dominates its accumulator when `1 ≤ mul`. -/
theorem beVal_foldl_le (mul : Nat) (hmul : 1 ≤ mul) :
    ∀ (l : List Nat) (acc : Nat), acc ≤ List.foldl (fun a v => a * mul + v) acc l := by
  intro l
  induction l with
  | nil => intro acc; exact le_rfl
  | cons v t ih =>
    intro acc
    calc acc ≤ acc * mul + v := by nlinarith
      _ ≤ List.foldl (fun a v => a * mul + v) (acc * mul + v) t := ih _

/-- A byte list headed by a nonzero byte has positive value. -/
theorem beVal_cons_pos (mul : Nat) (hmul : 1 ≤ mul) (m : Nat) (hm : m ≠ 0) (rest : List Nat) :
    0 < beVal mul (m :: rest) := by
  have : m ≤ beVal mul (m :: rest) := by
    simpa [beVal] using beVal_foldl_le mul hmul rest m
  omega

/-- The zero step fixes the singleton zero accumulator. -/
theorem convStep_zero (mul base : Nat) : convStep mul base [0] 0 = [0] := by
  simp [convStep, convScan, convPush, convPushAux_zero]

/-- Accumulating only zeros leaves the accumulator at `[0]`. -/
theorem convFold_replicate_zero (mul base : Nat) (n : Nat) :
    convFold mul base (List.replicate n 0) = [0] := by
  induction n with
  | zero => rfl
  | succ m ih =>
    have : List.replicate (m + 1) 0 = (0 : Nat) :: List.replicate m 0 := rfl
    rw [convFold, this, List.foldl_cons, convStep_zero]
    exact ih

/-- The alphabet lookup inverts the digit-to-character table. -/
theorem b58val_b58chr : ∀ d, d < 58 → b58val (b58chr d) = some d := by decide

/-- Only digit `0` maps to the character `'1'`. -/
theorem b58chr_ne_one : ∀ d, d < 58 → d ≠ 0 → b58chr d ≠ '1' := by decide

/-- Character lookup of `'1'` is digit `0`. -/
theorem b58val_one : b58val '1' = some 0 := by decide

/-- Leading `'1'` markers prepend zero digit values through the lookup
pass. -/
theorem mapVals_replicate_one (k : Nat) (cs : List Char) :
    mapVals (List.replicate k '1' ++ cs)
      = (mapVals cs).map (List.replicate k 0 ++ ·) := by
  induction k with
  | zero =>
    simp only [List.replicate, List.nil_append, List.replicate_zero]
    cases mapVals cs <;> simp
  | succ m ih =>
    rw [List.replicate_succ, List.cons_append]
    show (match b58val '1', mapVals (List.replicate m '1' ++ cs) with
      | some v, some vs => some (v :: vs)
      | _, _ => none) = _
    rw [b58val_one, ih]
    cases mapVals cs <;> simp [List.replicate_succ]

/-- Looking up the encoding of in-range digits succeeds and returns
them unchanged. -/
theorem mapVals_map_b58chr : ∀ (l : List Nat), (∀ d ∈ l, d < 58) →
    mapVals (l.map b58chr) = some l := by
  intro l
  induction l with
  | nil => intro _; rfl
  | cons d t ih =>
    intro hb
    rw [List.map_cons]
    show (match b58val (b58chr d), mapVals (t.map b58chr) with
      | some v, some vs => some (v :: vs)
      | _, _ => none) = _
    rw [b58val_b58chr d (hb d (by simp)), ih (fun x hx => hb x (List.mem_cons_of_mem _ hx))]

/-- Counting leading `'1'`s stops at the first other character. -/
theorem leadingOneCount_replicate (k : Nat) (c : Char) (hc : c ≠ '1') (cs : List Char) :
    leadingOneCount (List.replicate k '1' ++ c :: cs) = k := by
  induction k with
  | zero => simp [leadingOneCount, hc]
  | succ m ih => simp [List.replicate_succ, leadingOneCount, ih]

/-- Counting leading `'1'`s of a pure run returns its length. -/
theorem leadingOneCount_replicate_all (k : Nat) :
    leadingOneCount (List.replicate k '1') = k := by
  induction k with
  | zero => rfl
  | succ m ih => simp [List.replicate_succ, leadingOneCount, ih]

/-- The leading-zero count of an all-zero byte list is its length. -/
theorem leadingZeroCount_replicate (n : Nat) :
    leadingZeroCount (List.replicate n 0) = n := by
  induction n with
  | zero => rfl
  | succ m ih => simp [List.replicate_succ, leadingZeroCount, ih]

/-- The leading zeros are an all-zero prefix. -/
theorem take_leadingZeroCount : ∀ (b : List Nat),
    List.take (leadingZeroCount b) b = List.replicate (leadingZeroCount b) 0 := by
  intro b
  induction b with
  | nil => rfl
  | cons x t ih =>
    by_cases hx : x = 0
    · subst hx
      simp [leadingZeroCount, List.replicate_succ, ih]
    · simp [leadingZeroCount, hx]

/-- Past the leading zeros of a list with a nonzero element sits a
nonzero head byte. -/
theorem drop_leadingZeroCount : ∀ (b : List Nat), (∃ x ∈ b, x ≠ 0) →
    ∃ m rest, List.drop (leadingZeroCount b) b = m :: rest ∧ m ≠ 0 := by
  intro b
  induction b with
  | nil => intro h; simp at h
  | cons x t ih =>
    intro h
    by_cases hx : x = 0
    · subst hx
      obtain ⟨y, hy, hyne⟩ := h
      have hyt : y ∈ t := by
        rcases List.mem_cons.1 hy with h | h
        · omega
        · exact h
      obtain ⟨m, rest, hd, hm⟩ := ih ⟨y, hyt, hyne⟩
      exact ⟨m, rest, by simpa [leadingZeroCount] using hd, hm⟩
    · exact ⟨x, t, by simp [leadingZeroCount, hx], hx⟩

/-- Core round-trip: decoding the encoding of any byte list that
contains a nonzero byte gives the list back.  Leading zero bytes
travel through the `'1'`-marker convention; the remaining value is
recovered by uniqueness of canonical base-256 digits. -/
theorem base58_roundtrip_nonzero (b : List Nat) (hb : ∀ x ∈ b, x < 256)
    (hnz : ∃ x ∈ b, x ≠ 0) : base58Decode (base58Encode b) = some b := by
  obtain ⟨m, rest, hdrop, hm⟩ := drop_leadingZeroCount b hnz
  have hsplit : List.replicate (leadingZeroCount b) 0 ++ m :: rest = b := by
    conv_rhs => rw [← List.take_append_drop (leadingZeroCount b) b]
    rw [take_leadingZeroCount, hdrop]
  have hEval : digitsVal 58 (convFold 256 58 b) = beVal 256 b :=
    convFold_val 256 58 (by omega) b
  have hvpos : 0 < digitsVal 58 (convFold 256 58 b) := by
    rw [hEval, ← hsplit, beVal_replicate_zero_append]
    exact beVal_cons_pos 256 (by omega) m hm rest
  have hEcanon := convFold_canon 256 58 (by omega) (by omega) b
  have hElast : (convFold 256 58 b).getLast? ≠ some 0 := by
    rcases hEcanon.2 with h | h
    · rw [h] at hvpos; simp [digitsVal] at hvpos
    · exact h
  have hErevne : (convFold 256 58 b).reverse ≠ [] := by
    simpa using hEcanon.1
  obtain ⟨y, ys, hyE⟩ := List.exists_cons_of_ne_nil hErevne
  have hy0 : y ≠ 0 := by
    intro h
    apply hElast
    rw [← List.head?_reverse, hyE, h]
    rfl
  have hyb : y < 58 := by
    have : y ∈ (convFold 256 58 b).reverse := by rw [hyE]; simp
    exact convFold_lt 256 58 (by omega) b y (List.mem_reverse.1 this)
  have hchars : (base58Encode b).toList
      = List.replicate (leadingZeroCount b) '1'
        ++ (convFold 256 58 b).reverse.map b58chr := rfl
  have hEbound : ∀ d ∈ (convFold 256 58 b).reverse, d < 58 := by
    intro d hd
    exact convFold_lt 256 58 (by omega) b d (List.mem_reverse.1 hd)
  show (match mapVals (base58Encode b).toList with
    | none => none
    | some vals =>
      some (List.replicate (leadingOneCount (base58Encode b).toList) 0
        ++ (convFold 58 256 vals).reverse)) = some b
  rw [hchars, mapVals_replicate_one,
    mapVals_map_b58chr _ hEbound, hyE, List.map_cons,
    leadingOneCount_replicate _ _ (b58chr_ne_one y hyb hy0)]
  rw [← hyE]
  simp only [Option.map_some']
  have hDval : digitsVal 256
      (convFold 58 256 (List.replicate (leadingZeroCount b) 0 ++ (convFold 256 58 b).reverse))
      = digitsVal 58 (convFold 256 58 b) := by
    rw [convFold_val 58 256 (by omega), beVal_replicate_zero_append,
      ← digitsVal_eq_beVal_reverse]
  set D := convFold 58 256 (List.replicate (leadingZeroCount b) 0 ++ (convFold 256 58 b).reverse)
    with hD
  have hDcanon := convFold_canon 58 256 (by omega) (by omega)
    (List.replicate (leadingZeroCount b) 0 ++ (convFold 256 58 b).reverse)
  have hDpos : 0 < digitsVal 256 D := by rw [hDval]; exact hvpos
  have hDlast : D.getLast? ≠ some 0 := by
    rcases hDcanon.2 with h | h
    · rw [hD, h] at hDpos; simp [digitsVal] at hDpos
    · rw [hD]; exact h
  have hTlast : (rest.reverse ++ [m]).getLast? = some m := by
    rw [List.getLast?_append_of_ne_nil _ (by simp)]; rfl
  have hTbound : ∀ d ∈ rest.reverse ++ [m], d < 256 := by
    intro d hd
    apply hb
    rw [← hsplit]
    rcases List.mem_append.1 hd with h | h
    · exact List.mem_append_right _ (List.mem_cons_of_mem _ (List.mem_reverse.1 h))
    · simp at h
      subst h
      exact List.mem_append_right _ (by simp)
  have hTval : digitsVal 256 (rest.reverse ++ [m]) = digitsVal 256 D := by
    rw [digitsVal_eq_beVal_reverse, List.reverse_append, List.reverse_reverse,
      hDval, hEval, ← hsplit, beVal_replicate_zero_append]
    rfl
  have hDeq : D = rest.reverse ++ [m] :=
    digitsVal_inj 256 (by omega) D (rest.reverse ++ [m])
      (fun d hd => convFold_lt 58 256 (by omega) _ d hd) hTbound hDlast
      (by rw [hTlast]; simp [hm]) hTval.symm
  rw [hDeq, List.reverse_append, List.reverse_reverse]
  simp only [List.reverse_singleton, List.singleton_append]
  rw [hsplit]

/-- Encoding an all-zero byte list of length `n` yields `n + 1` copies
of `'1'`: the `n` leading-zero markers plus the character of the
residual `[0]` accumulator. -/
theorem base58Encode_replicate_zero (n : Nat) :
    base58Encode (List.replicate n 0) = String.mk (List.replicate (n + 1) '1') := by
  unfold base58Encode
  rw [leadingZeroCount_replicate, convFold_replicate_zero]
  rw [show (([0] : List Nat).reverse.map b58chr) = ['1'] from rfl]
  rw [← List.replicate_succ']

/-- Decoding a run of `m` copies of `'1'` yields `m + 1` zero bytes:
`m` for the markers plus one for the residual `[0]` accumulator. -/
theorem base58Decode_replicate_one (m : Nat) :
    base58Decode (String.mk (List.replicate m '1')) = some (List.replicate (m + 1) 0) := by
  show (match mapVals (String.mk (List.replicate m '1')).toList with
    | none => none
    | some vals =>
      some (List.replicate (leadingOneCount (String.mk (List.replicate m '1')).toList) 0
        ++ (convFold 58 256 vals).reverse)) = _
  have htl : (String.mk (List.replicate m '1')).toList = List.replicate m '1' := rfl
  rw [htl]
  have hmv : mapVals (List.replicate m '1') = some (List.replicate m 0) := by
    have := mapVals_replicate_one m []
    simpa [mapVals] using this
  rw [hmv, leadingOneCount_replicate_all]
  show some (List.replicate m 0 ++ (convFold 58 256 (List.replicate m 0)).reverse)
    = some (List.replicate (m + 1) 0)
  rw [convFold_replicate_zero]
  rw [show (([0] : List Nat).reverse) = [0] from rfl, ← List.replicate_succ']

/-- A byte list with no nonzero entry is a replicate of zeros. -/
theorem eq_replicate_zero_of_all_zero : ∀ (b : List Nat), (∀ x ∈ b, x = 0) →
    b = List.replicate b.length 0 := by
  intro b
  induction b with
  | nil => intro _; rfl
  | cons x t ih =>
    intro h
    have hx : x = 0 := h x (by simp)
    have ht := ih (fun z hz => h z (List.mem_cons_of_mem _ hz))
    rw [List.length_cons, List.replicate_succ, hx, ← ht]

/-! ## Base-64 transport encoding

The envelope travels as `Buffer.from(result).toString` in base-64 and
comes back through `Buffer.from(encryptedBase64, 'base64')`.  Both are
external platform primitives: the encoder is canonical RFC 4648 with
padding; the decoder is Node's lenient one, which never fails and
skips characters outside the alphabet. -/

/-- The base-64 alphabet `A-Z a-z 0-9 + /`. -/
def b64chars : List Char :=
  ['A','B','C','D','E','F','G','H','I','J','K','L','M','N','O','P','Q','R','S',
   'T','U','V','W','X','Y','Z',
   'a','b','c','d','e','f','g','h','i','j','k','l','m','n','o','p','q','r','s',
   't','u','v','w','x','y','z',
   '0','1','2','3','4','5','6','7','8','9','+','/']

/-- Character of a 6-bit digit. -/
def b64chr (d : Nat) : Char := b64chars.getD d 'A'

/-- Digit of a base-64 character, `none` outside the alphabet. -/
def b64val (c : Char) : Option Nat := charIndex b64chars c

/-- RFC 4648 encoder on 3-byte groups with `'='` padding, modelling
`Buffer.prototype.toString` with encoding base64. -/
def base64EncodeList : List Nat → List Char
  | [] => []
  | [a] => [b64chr (a / 4), b64chr (a % 4 * 16), '=', '=']
  | [a, b] => [b64chr (a / 4), b64chr (a % 4 * 16 + b / 16), b64chr (b % 16 * 4), '=']
  | a :: b :: c :: rest =>
    b64chr (a / 4) :: b64chr (a % 4 * 16 + b / 16) :: b64chr (b % 16 * 4 + c / 64)
      :: b64chr (c % 64) :: base64EncodeList rest

/-- Reassemble bytes from 6-bit digits, four at a time; a trailing
group of two or three digits contributes one or two bytes, a lone
digit is dropped.  This is the digit phase of Node's lenient decoder. -/
def decodeQuads : List Nat → List Nat
  | d1 :: d2 :: d3 :: d4 :: rest =>
    (d1 * 4 + d2 / 16) :: (d2 % 16 * 16 + d3 / 4) :: (d3 % 4 * 64 + d4)
      :: decodeQuads rest
  | [d1, d2, d3] => [d1 * 4 + d2 / 16, d2 % 16 * 16 + d3 / 4]
  | [d1, d2] => [d1 * 4 + d2 / 16]
  | _ => []

/-- The base-64 string of a byte list. -/
def base64Encode (bytes : List Nat) : String := String.mk (base64EncodeList bytes)

/-- Node's `Buffer.from(s, 'base64')`: never fails; characters outside
the alphabet (including `'='` padding) are skipped, and the surviving
6-bit digits are reassembled into bytes. -/
def base64DecodeLenient (s : String) : List Nat :=
  decodeQuads (s.toList.filterMap b64val)

/-- Digit lookup inverts the base-64 digit-to-character table. -/
theorem b64val_b64chr : ∀ d, d < 64 → b64val (b64chr d) = some d := by decide

/-- Padding characters are skipped by the lenient decoder. -/
theorem b64val_eq : b64val '=' = none := by decide

/-- Dividing out a scaled digit below the scale. -/
theorem mul_add_div_lt (k x y : Nat) (hk : 0 < k) (hy : y < k) : (x * k + y) / k = x := by
  rw [Nat.mul_comm, Nat.mul_add_div hk, Nat.div_eq_of_lt hy, Nat.add_zero]

/-- Reducing a scaled digit below the scale. -/
theorem mul_add_mod_lt (k x y : Nat) (hy : y < k) : (x * k + y) % k = y := by
  rw [Nat.mul_comm, Nat.mul_add_mod]
  exact Nat.mod_eq_of_lt hy

/-- Reassembling the first byte of a base-64 group. -/
theorem b64_byte1 (a b : Nat) (ha : a < 256) (hb : b < 16) :
    a / 4 * 4 + (a % 4 * 16 + b) / 16 = a := by
  rw [mul_add_div_lt 16 (a % 4) b (by norm_num) hb]
  omega

/-- Reassembling the second byte of a base-64 group. -/
theorem b64_byte2 (a b c : Nat) (hb : b < 256) (hc : c < 4) :
    (a % 4 * 16 + b / 16) % 16 * 16 + (b % 16 * 4 + c) / 4 = b := by
  rw [mul_add_mod_lt 16 (a % 4) (b / 16) (by omega),
    mul_add_div_lt 4 (b % 16) c (by norm_num) hc]
  omega

/-- Reassembling the third byte of a base-64 group. -/
theorem b64_byte3 (b c : Nat) (hc : c < 256) :
    (b % 16 * 4 + c / 64) % 4 * 64 + c % 64 = c := by
  rw [mul_add_mod_lt 4 (b % 16) (c / 64) (by omega)]
  omega

/-- Lenient decode of the canonical encoding restores the bytes. -/
theorem decodeQuads_encode : ∀ (l : List Nat), (∀ x ∈ l, x < 256) →
    decodeQuads (List.filterMap b64val (base64EncodeList l)) = l
  | [] => fun _ => by simp [base64EncodeList, decodeQuads]
  | [a] => fun h => by
    have ha : a < 256 := h a (by simp)
    have h1 : a / 4 < 64 := by omega
    have h2 : a % 4 * 16 < 64 := by omega
    simp only [base64EncodeList, List.filterMap_cons, b64val_b64chr _ h1,
      b64val_b64chr _ h2, b64val_eq, List.filterMap_nil]
    show decodeQuads [a / 4, a % 4 * 16] = [a]
    simp only [decodeQuads]
    have := b64_byte1 a 0 ha (by norm_num)
    simp only [Nat.add_zero] at this
    rw [this]
  | [a, b] => fun h => by
    have ha : a < 256 := h a (by simp)
    have hb : b < 256 := h b (by simp)
    have h1 : a / 4 < 64 := by omega
    have h2 : a % 4 * 16 + b / 16 < 64 := by omega
    have h3 : b % 16 * 4 < 64 := by omega
    simp only [base64EncodeList, List.filterMap_cons, b64val_b64chr _ h1,
      b64val_b64chr _ h2, b64val_b64chr _ h3, b64val_eq, List.filterMap_nil]
    show decodeQuads [a / 4, a % 4 * 16 + b / 16, b % 16 * 4] = [a, b]
    simp only [decodeQuads]
    rw [b64_byte1 a (b / 16) ha (by omega)]
    have := b64_byte2 a b 0 hb (by norm_num)
    simp only [Nat.add_zero] at this
    rw [this]
  | a :: b :: c :: rest => fun h => by
    have ha : a < 256 := h a (by simp)
    have hb : b < 256 := h b (by simp)
    have hc : c < 256 := h c (by simp)
    have h1 : a / 4 < 64 := by omega
    have h2 : a % 4 * 16 + b / 16 < 64 := by omega
    have h3 : b % 16 * 4 + c / 64 < 64 := by omega
    have h4 : c % 64 < 64 := by omega
    have ih := decodeQuads_encode rest
      (fun x hx => h x (by simp [hx]))
    simp only [base64EncodeList, List.filterMap_cons, b64val_b64chr _ h1,
      b64val_b64chr _ h2, b64val_b64chr _ h3, b64val_b64chr _ h4]
    show decodeQuads (a / 4 :: (a % 4 * 16 + b / 16) :: (b % 16 * 4 + c / 64) :: c % 64
      :: List.filterMap b64val (base64EncodeList rest)) = a :: b :: c :: rest
    simp only [decodeQuads, ih]
    rw [b64_byte1 a (b / 16) ha (by omega), b64_byte2 a b (c / 64) hb (by omega),
      b64_byte3 b c hc]

/-- Round trip through the base-64 transport layer. -/
theorem base64_roundtrip (l : List Nat) (h : ∀ x ∈ l, x < 256) :
    base64DecodeLenient (base64Encode l) = l := by
  unfold base64DecodeLenient base64Encode
  rw [show (String.mk (base64EncodeList l)).toList = base64EncodeList l from rfl]
  exact decodeQuads_encode l h

/-! ## The AES-GCM envelope operations

`encryptData` / `decryptData` from the source, with the Web Crypto
AEAD primitive and the `TextEncoder`/`TextDecoder` pair passed in as
explicit interface parameters, and the random nonce as an explicit
argument. -/

/-- Interface of the platform AEAD primitive (`crypto.subtle.encrypt`
and `crypto.subtle.decrypt` for AES-GCM): arguments are key bytes,
nonce bytes and payload bytes; decryption fails (with
`OperationError`) on an authentication mismatch, which `none`
models. -/
structure Aead where
  encrypt : List Nat → List Nat → List Nat → List Nat
  decrypt : List Nat → List Nat → List Nat → Option (List Nat)

/-- Interface of the platform text codec (`TextEncoder` /
`TextDecoder` for UTF-8). -/
structure TextCodec where
  encode : String → List Nat
  decode : List Nat → String

/-- The failure modes the source can surface: the base-58 decoder's
"Invalid base58 character" throw, the `DataError` thrown by
`crypto.subtle.importKey` for raw AES key material whose length is not
16, 24 or 32 bytes, and the AEAD's own authentication failure. -/
inductive CryptoErr where
  | invalidBase58
  | importKeyError
  | aeadError
deriving DecidableEq

/-- Modelled from the Web Crypto API, an external collaborator of the
source: `importKey("raw", k, "AES-GCM", ...)` accepts 128-, 192- or
256-bit key material and throws `DataError` otherwise. -/
def importAesKey (keyData : List Nat) : Except CryptoErr (List Nat) :=
  if keyData.length = 16 ∨ keyData.length = 24 ∨ keyData.length = 32 then
    .ok keyData
  else
    .error .importKeyError

/-- `encryptData`: decode the key from base-58, import it, encrypt the
UTF-8 plaintext under a fresh 12-byte nonce, and return the base-64
string of `iv || ciphertext` — translated line by line from the
source (which prepends no version byte). -/
def encryptData (A : Aead) (T : TextCodec) (iv : List Nat)
    (plaintext key : String) : Except CryptoErr String :=
  match base58Decode key with
  | none => .error .invalidBase58
  | some keyData =>
    match importAesKey keyData with
    | .error e => .error e
    | .ok cryptoKey =>
      let encodedData := T.encode plaintext
      let encryptedData := A.encrypt cryptoKey iv encodedData
      .ok (base64Encode (iv ++ encryptedData))

/-- `decryptData`: decode the key from base-58, import it, split the
base-64-decoded envelope at byte 12 into nonce and ciphertext
(unconditionally — the source inspects no version byte), decrypt, and
decode the plaintext as text. -/
def decryptData (A : Aead) (T : TextCodec)
    (encryptedBase64 key : String) : Except CryptoErr String :=
  match base58Decode key with
  | none => .error .invalidBase58
  | some keyData =>
    match importAesKey keyData with
    | .error e => .error e
    | .ok cryptoKey =>
      let encryptedData := base64DecodeLenient encryptedBase64
      let iv := encryptedData.take 12
      let data := encryptedData.drop 12
      match A.decrypt cryptoKey iv data with
      | some decryptedData => .ok (T.decode decryptedData)
      | none => .error .aeadError

/-- Decidable equality of operation results, for concrete
evaluation. -/
instance instDecEqExcept {ε α : Type} [DecidableEq ε] [DecidableEq α] :
    DecidableEq (Except ε α) := fun a b =>
  match a, b with
  | .ok x, .ok y =>
    if h : x = y then isTrue (by rw [h]) else isFalse (fun hc => h (Except.ok.inj hc))
  | .error x, .error y =>
    if h : x = y then isTrue (by rw [h]) else isFalse (fun hc => h (Except.error.inj hc))
  | .ok _, .error _ => isFalse (fun hc => Except.noConfusion hc)
  | .error _, .ok _ => isFalse (fun hc => Except.noConfusion hc)

/-- A trivial AEAD instance for concrete evaluation: ciphertext equals
plaintext, decryption always succeeds. -/
def idAead : Aead where
  encrypt := fun _ _ m => m
  decrypt := fun _ _ c => some c

/-- An AEAD instance whose decryption reveals the nonce it was handed,
used to observe which envelope bytes the open operation treats as the
nonce. -/
def nonceAead : Aead where
  encrypt := fun _ _ m => m
  decrypt := fun _ n _ => some n

/-- A concrete text codec for evaluation: code points as values. -/
def cpText : TextCodec where
  encode := fun s => s.toList.map Char.toNat
  decode := fun l => String.mk (l.map Char.ofNat)

/-! ## Claim theorems -/

/-- C10: `base58Decode` applied to the empty string succeeds and
returns the single byte `0x00` (the residual `[0]` accumulator), not
the empty byte sequence. -/
theorem c10_decode_empty_string : base58Decode "" = some [0] := by decide

/-- C9: for every byte sequence containing at least one nonzero byte,
decoding the base-58 encoding returns the sequence unchanged,
whatever the number of leading zero bytes. -/
theorem c9_roundtrip_nonzero (b : List Nat) (hb : ∀ x ∈ b, x < 256)
    (hnz : ∃ x ∈ b, x ≠ 0) : base58Decode (base58Encode b) = some b :=
  base58_roundtrip_nonzero b hb hnz

/-- Witness for C9 at the concrete input `[0, 7, 255]`, which has a
leading zero byte. -/
theorem c9_roundtrip_nonzero_witness :
    (∀ x ∈ ([0, 7, 255] : List Nat), x < 256)
    ∧ (∃ x ∈ ([0, 7, 255] : List Nat), x ≠ 0)
    ∧ base58Decode (base58Encode [0, 7, 255]) = some [0, 7, 255] :=
  ⟨by decide, by decide, c9_roundtrip_nonzero [0, 7, 255] (by decide) (by decide)⟩

/-- C2 counterexample: the claimed round trip fails on the empty byte
sequence — decoding its encoding yields `[0, 0]`, not `[]`. -/
theorem c2_roundtrip_counterexample :
    base58Decode (base58Encode []) = some [0, 0]
    ∧ some ([0, 0] : List Nat) ≠ some ([] : List Nat) := by decide

/-- C2 amended: the round trip restores every byte sequence with a
nonzero byte; an empty or all-zero input of length `N` instead comes
back as `N + 2` zero bytes (one spurious `'1'` from the encoder's
residual accumulator, one spurious zero byte from the decoder's). -/
theorem c2_roundtrip_characterization (b : List Nat) (hb : ∀ x ∈ b, x < 256) :
    base58Decode (base58Encode b)
      = some (if b.any (fun x => x != 0) then b else List.replicate (b.length + 2) 0) := by
  by_cases h : b.any (fun x => x != 0)
  · rw [if_pos h]
    refine base58_roundtrip_nonzero b hb ?_
    obtain ⟨x, hx, hxne⟩ := List.any_eq_true.1 h
    exact ⟨x, hx, by simpa using hxne⟩
  · rw [if_neg h]
    have hz : ∀ x ∈ b, x = 0 := by
      intro x hx
      by_contra hxne
      exact h (List.any_eq_true.2 ⟨x, hx, by simpa using hxne⟩)
    have hrep := eq_replicate_zero_of_all_zero b hz
    conv_lhs => rw [hrep]
    rw [base58Encode_replicate_zero, base58Decode_replicate_one]

/-- Witness for C2 at the concrete all-zero input `[0, 0]`. -/
theorem c2_roundtrip_characterization_witness :
    (∀ x ∈ ([0, 0] : List Nat), x < 256)
    ∧ base58Decode (base58Encode [0, 0])
      = some (if ([0, 0] : List Nat).any (fun x => x != 0) then [0, 0]
          else List.replicate (([0, 0] : List Nat).length + 2) 0) :=
  ⟨by decide, c2_roundtrip_characterization [0, 0] (by decide)⟩

/-- C6 counterexample: the empty byte sequence encodes to `"1"`, not
to the empty string. -/
theorem c6_encode_counterexample :
    base58Encode [] = "1" ∧ ("1" : String) ≠ "" := by decide

/-- C6 amended: `base58Encode` maps the all-zero byte sequence of
length `N` (the empty sequence included, as `N = 0`) to `N + 1` copies
of `'1'`: one marker per zero byte plus the character of the residual
`[0]` digit accumulator. -/
theorem c6_encode_zeros (n : Nat) :
    base58Encode (List.replicate n 0) = String.mk (List.replicate (n + 1) '1') :=
  base58Encode_replicate_zero n

/-- C3 counterexample: the generated key decodes to 16 bytes, not
32 — the source draws `new Uint8Array(16)`. -/
theorem c3_keylength_counterexample :
    (base58Decode (generateEncryptionKey (List.replicate 16 7))).map List.length = some 16
    ∧ (16 : Nat) ≠ 32 := by decide

/-- C3 amended: every key produced by `generateEncryptionKey` is the
base-58 encoding of the 16 random bytes drawn, and whenever those
bytes are not all zero the key text decodes back to exactly 16
bytes. -/
theorem c3_key_decodes_to_16 (r : List Nat) (h16 : r.length = 16)
    (hb : ∀ x ∈ r, x < 256) (hnz : ∃ x ∈ r, x ≠ 0) :
    ∃ bs, base58Decode (generateEncryptionKey r) = some bs ∧ bs.length = 16 :=
  ⟨r, base58_roundtrip_nonzero r hb hnz, h16⟩

/-- Witness for C3 at a concrete 16-byte random draw. -/
theorem c3_key_decodes_to_16_witness :
    (List.replicate 16 7).length = 16
    ∧ (∀ x ∈ List.replicate 16 7, x < 256)
    ∧ (∃ x ∈ List.replicate 16 7, x ≠ 0)
    ∧ ∃ bs, base58Decode (generateEncryptionKey (List.replicate 16 7)) = some bs
        ∧ bs.length = 16 :=
  ⟨by decide, by decide, by decide,
    c3_key_decodes_to_16 (List.replicate 16 7) (by decide) (by decide) (by decide)⟩

/-- Key material of an accepted AES length is imported unchanged. -/
theorem importAesKey_ok (kd : List Nat)
    (h : kd.length = 16 ∨ kd.length = 24 ∨ kd.length = 32) :
    importAesKey kd = .ok kd := by
  unfold importAesKey
  rw [if_pos h]

/-- Key material of any other length is rejected by the platform. -/
theorem importAesKey_err (kd : List Nat)
    (h : ¬(kd.length = 16 ∨ kd.length = 24 ∨ kd.length = 32)) :
    importAesKey kd = .error .importKeyError := by
  unfold importAesKey
  rw [if_neg h]

/-- C1 counterexample: if the 16 random bytes drawn happen to be all
zero, the generated key text decodes to 18 zero bytes (the codec's
zero-input quirk), the platform rejects it as AES key material, and
the round trip errors instead of returning the plaintext. -/
theorem c1_roundtrip_counterexample :
    (encryptData idAead cpText (List.replicate 12 5) "x"
        (generateEncryptionKey (List.replicate 16 0))).bind
      (fun env => decryptData idAead cpText env (generateEncryptionKey (List.replicate 16 0)))
      = .error .importKeyError
    ∧ (Except.error CryptoErr.importKeyError ≠ (.ok "x" : Except CryptoErr String)) := by
  decide

/-- C1 amended: for every plaintext and every key generated from 16
random bytes that are not all zero, opening the sealed envelope with
the same key returns the plaintext, provided the platform AEAD and
text codec invert each other on the data involved. -/
theorem c1_seal_open_roundtrip (A : Aead) (T : TextCodec) (r iv : List Nat) (p : String)
    (hr16 : r.length = 16) (hrb : ∀ x ∈ r, x < 256) (hrnz : ∃ x ∈ r, x ≠ 0)
    (hiv : iv.length = 12) (hivb : ∀ x ∈ iv, x < 256)
    (hct : ∀ x ∈ A.encrypt r iv (T.encode p), x < 256)
    (hA : A.decrypt r iv (A.encrypt r iv (T.encode p)) = some (T.encode p))
    (hT : T.decode (T.encode p) = p) :
    (encryptData A T iv p (generateEncryptionKey r)).bind
      (fun env => decryptData A T env (generateEncryptionKey r)) = .ok p := by
  have hkey : base58Decode (generateEncryptionKey r) = some r :=
    base58_roundtrip_nonzero r hrb hrnz
  have hbytes : ∀ x ∈ iv ++ A.encrypt r iv (T.encode p), x < 256 := by
    intro x hx
    rcases List.mem_append.1 hx with h | h
    · exact hivb x h
    · exact hct x h
  have hb64 := base64_roundtrip (iv ++ A.encrypt r iv (T.encode p)) hbytes
  have htake : (iv ++ A.encrypt r iv (T.encode p)).take 12 = iv := by
    rw [← hiv]
    exact List.take_left _ _
  have hdrop : (iv ++ A.encrypt r iv (T.encode p)).drop 12 = A.encrypt r iv (T.encode p) := by
    rw [← hiv]
    exact List.drop_left _ _
  simp only [encryptData, decryptData, hkey, importAesKey_ok r (Or.inl hr16),
    Except.bind, hb64, htake, hdrop, hA, hT]

/-- Witness for C1 at concrete primitives, key bytes, nonce and
plaintext. -/
theorem c1_seal_open_roundtrip_witness :
    (List.replicate 16 7).length = 16
    ∧ (∀ x ∈ List.replicate 16 7, x < 256)
    ∧ (∃ x ∈ List.replicate 16 7, x ≠ 0)
    ∧ (List.replicate 12 5).length = 12
    ∧ (∀ x ∈ List.replicate 12 5, x < 256)
    ∧ (∀ x ∈ idAead.encrypt (List.replicate 16 7) (List.replicate 12 5) (cpText.encode "ok"),
        x < 256)
    ∧ idAead.decrypt (List.replicate 16 7) (List.replicate 12 5)
        (idAead.encrypt (List.replicate 16 7) (List.replicate 12 5) (cpText.encode "ok"))
        = some (cpText.encode "ok")
    ∧ cpText.decode (cpText.encode "ok") = "ok"
    ∧ (encryptData idAead cpText (List.replicate 12 5) "ok"
          (generateEncryptionKey (List.replicate 16 7))).bind
        (fun env => decryptData idAead cpText env (generateEncryptionKey (List.replicate 16 7)))
        = .ok "ok" :=
  ⟨by decide, by decide, by decide, by decide, by decide, by decide, by decide, by decide,
    c1_seal_open_roundtrip idAead cpText (List.replicate 16 7) (List.replicate 12 5) "ok"
      (by decide) (by decide) (by decide) (by decide) (by decide) (by decide) (by decide)
      (by decide)⟩

/-- C4 counterexample: with a key that decodes to 16 bytes, the first
byte of the base-64-decoded envelope is the first nonce byte (here 3),
not the version byte 1 the claim requires — no version byte is
prepended. -/
theorem c4_envelope_counterexample :
    (base58Decode (base58Encode (List.replicate 16 7))).map List.length = some 16
    ∧ (encryptData idAead cpText (3 :: List.replicate 11 0) "ab"
          (base58Encode (List.replicate 16 7))).map
        (fun env => (base64DecodeLenient env).head?) = .ok (some 3)
    ∧ some (3 : Nat) ≠ some 1 ∧ some (3 : Nat) ≠ some 2 := by decide

/-- C4 amended: for every valid key the sealed envelope, after base-64
decoding, has the unversioned layout `IV(12 bytes) || ciphertext+tag`
— no version byte is prepended for either key strength. -/
theorem c4_envelope_layout (A : Aead) (T : TextCodec) (iv : List Nat) (p key : String)
    (keyData : List Nat) (hk : base58Decode key = some keyData)
    (hlen : keyData.length = 16 ∨ keyData.length = 24 ∨ keyData.length = 32)
    (hivb : ∀ x ∈ iv, x < 256)
    (hct : ∀ x ∈ A.encrypt keyData iv (T.encode p), x < 256) :
    ∃ env, encryptData A T iv p key = .ok env
      ∧ base64DecodeLenient env = iv ++ A.encrypt keyData iv (T.encode p) := by
  refine ⟨base64Encode (iv ++ A.encrypt keyData iv (T.encode p)), ?_, ?_⟩
  · simp only [encryptData, hk, importAesKey_ok keyData hlen]
  · refine base64_roundtrip _ ?_
    intro x hx
    rcases List.mem_append.1 hx with h | h
    · exact hivb x h
    · exact hct x h

/-- Witness for C4 at a concrete key, nonce and plaintext. -/
theorem c4_envelope_layout_witness :
    base58Decode (base58Encode (List.replicate 16 7)) = some (List.replicate 16 7)
    ∧ ((List.replicate 16 7 : List Nat).length = 16
        ∨ (List.replicate 16 7 : List Nat).length = 24
        ∨ (List.replicate 16 7 : List Nat).length = 32)
    ∧ (∀ x ∈ (3 :: List.replicate 11 0 : List Nat), x < 256)
    ∧ (∀ x ∈ idAead.encrypt (List.replicate 16 7) (3 :: List.replicate 11 0)
          (cpText.encode "ab"), x < 256)
    ∧ ∃ env, encryptData idAead cpText (3 :: List.replicate 11 0) "ab"
          (base58Encode (List.replicate 16 7)) = .ok env
        ∧ base64DecodeLenient env
          = (3 :: List.replicate 11 0)
            ++ idAead.encrypt (List.replicate 16 7) (3 :: List.replicate 11 0)
              (cpText.encode "ab") :=
  ⟨by decide, by decide, by decide, by decide,
    c4_envelope_layout idAead cpText (3 :: List.replicate 11 0) "ab"
      (base58Encode (List.replicate 16 7)) (List.replicate 16 7) (by decide) (by decide)
      (by decide) (by decide)⟩

/-- C5 counterexample: an envelope whose first decoded byte is 1 is
still split at byte 12 — with an AEAD that reveals its nonce, the open
operation reports the nonce `bytes[0..12]` (which keeps the leading 1),
not the `bytes[1..13]` a versioned parse would have produced. -/
theorem c5_parse_counterexample :
    decryptData nonceAead cpText
        (base64Encode [1, 10, 11, 12, 13, 14, 15, 16, 17, 18, 19, 20, 99])
        (base58Encode (List.replicate 16 7))
      = .ok (cpText.decode [1, 10, 11, 12, 13, 14, 15, 16, 17, 18, 19, 20])
    ∧ cpText.decode [1, 10, 11, 12, 13, 14, 15, 16, 17, 18, 19, 20]
      ≠ cpText.decode [10, 11, 12, 13, 14, 15, 16, 17, 18, 19, 20, 99] := by decide

/-- C5 amended: the open operation never inspects the first byte; even
when that byte equals 1 or 2 the envelope is parsed in the legacy
layout, nonce = bytes[0..12] and ciphertext = bytes[12..]. -/
theorem c5_always_legacy_parse (A : Aead) (T : TextCodec) (env key : String)
    (keyData : List Nat) (hk : base58Decode key = some keyData)
    (hlen : keyData.length = 16 ∨ keyData.length = 24 ∨ keyData.length = 32)
    (hfirst : (base64DecodeLenient env).head? = some 1
      ∨ (base64DecodeLenient env).head? = some 2) :
    decryptData A T env key
      = match A.decrypt keyData ((base64DecodeLenient env).take 12)
          ((base64DecodeLenient env).drop 12) with
        | some pt => .ok (T.decode pt)
        | none => .error .aeadError := by
  simp only [decryptData, hk, importAesKey_ok keyData hlen]

/-- Witness for C5 at a concrete versioned-looking envelope. -/
theorem c5_always_legacy_parse_witness :
    base58Decode (base58Encode (List.replicate 16 7)) = some (List.replicate 16 7)
    ∧ ((List.replicate 16 7 : List Nat).length = 16
        ∨ (List.replicate 16 7 : List Nat).length = 24
        ∨ (List.replicate 16 7 : List Nat).length = 32)
    ∧ ((base64DecodeLenient
          (base64Encode [1, 10, 11, 12, 13, 14, 15, 16, 17, 18, 19, 20, 99])).head? = some 1
        ∨ (base64DecodeLenient
          (base64Encode [1, 10, 11, 12, 13, 14, 15, 16, 17, 18, 19, 20, 99])).head? = some 2)
    ∧ decryptData idAead cpText
        (base64Encode [1, 10, 11, 12, 13, 14, 15, 16, 17, 18, 19, 20, 99])
        (base58Encode (List.replicate 16 7))
      = match idAead.decrypt (List.replicate 16 7)
          ((base64DecodeLenient
            (base64Encode [1, 10, 11, 12, 13, 14, 15, 16, 17, 18, 19, 20, 99])).take 12)
          ((base64DecodeLenient
            (base64Encode [1, 10, 11, 12, 13, 14, 15, 16, 17, 18, 19, 20, 99])).drop 12) with
        | some pt => .ok (cpText.decode pt)
        | none => .error .aeadError :=
  ⟨by decide, by decide, by decide,
    c5_always_legacy_parse idAead cpText
      (base64Encode [1, 10, 11, 12, 13, 14, 15, 16, 17, 18, 19, 20, 99])
      (base58Encode (List.replicate 16 7)) (List.replicate 16 7) (by decide) (by decide)
      (by decide)⟩

/-- C7 counterexample: a key text decoding to 24 bytes — neither 16
nor 32 — is accepted and the seal operation succeeds, so no
`InvalidKey` failure occurs for it. -/
theorem c7_keycheck_counterexample :
    (base58Decode (base58Encode (List.replicate 24 9))).map List.length = some 24
    ∧ (encryptData idAead cpText (List.replicate 12 5) "p"
        (base58Encode (List.replicate 24 9))).isOk = true := by decide

/-- C7 amended: when the key text fails base-58 decoding, or decodes
to a length other than the 16, 24 or 32 bytes the platform importKey
accepts, both operations fail — with the base-58 error or the
platform's key-import error, never the AEAD error — before any
encryption or decryption is attempted. -/
theorem c7_key_validation (A : Aead) (T : TextCodec) (iv : List Nat) (p env key : String)
    (h : base58Decode key = none
      ∨ ∃ kd, base58Decode key = some kd
          ∧ ¬(kd.length = 16 ∨ kd.length = 24 ∨ kd.length = 32)) :
    ∃ e, e ≠ CryptoErr.aeadError
      ∧ encryptData A T iv p key = .error e
      ∧ decryptData A T env key = .error e := by
  rcases h with h | ⟨kd, hkd, hlen⟩
  · exact ⟨.invalidBase58, by simp,
      by simp only [encryptData, h], by simp only [decryptData, h]⟩
  · exact ⟨.importKeyError, by simp,
      by simp only [encryptData, hkd, importAesKey_err kd hlen],
      by simp only [decryptData, hkd, importAesKey_err kd hlen]⟩

/-- Witness for C7 at the concrete key text `"0"`, whose character is
outside the base-58 alphabet. -/
theorem c7_key_validation_witness :
    (base58Decode "0" = none
      ∨ ∃ kd, base58Decode "0" = some kd
          ∧ ¬(kd.length = 16 ∨ kd.length = 24 ∨ kd.length = 32))
    ∧ ∃ e, e ≠ CryptoErr.aeadError
        ∧ encryptData idAead cpText [] "p" "0" = .error e
        ∧ decryptData idAead cpText "e" "0" = .error e :=
  ⟨Or.inl (by decide),
    c7_key_validation idAead cpText [] "p" "e" "0" (Or.inl (by decide))⟩

/-- C8 counterexample: the empty envelope string decodes to zero bytes
— fewer than the 12-byte nonce — yet the open operation raises no
malformed-envelope error; with an always-succeeding AEAD it even
returns successfully. -/
theorem c8_malformed_counterexample :
    base64DecodeLenient "" = []
    ∧ decryptData idAead cpText "" (base58Encode (List.replicate 16 7)) = .ok "" := by
  decide

/-- C8 amended: the open operation validates nothing about the
envelope: the Buffer-style base-64 decode never fails, and an envelope
decoding to fewer than 12 bytes is not rejected — all of its bytes are
used as the nonce, the AEAD receives an empty ciphertext, and the only
possible failure is the AEAD's own. -/
theorem c8_no_envelope_validation (A : Aead) (T : TextCodec) (env key : String)
    (keyData : List Nat) (hk : base58Decode key = some keyData)
    (hlen : keyData.length = 16 ∨ keyData.length = 24 ∨ keyData.length = 32)
    (hshort : (base64DecodeLenient env).length < 12) :
    decryptData A T env key
      = match A.decrypt keyData (base64DecodeLenient env) [] with
        | some pt => .ok (T.decode pt)
        | none => .error .aeadError := by
  have htake : (base64DecodeLenient env).take 12 = base64DecodeLenient env :=
    List.take_of_length_le (by omega)
  have hdrop : (base64DecodeLenient env).drop 12 = [] :=
    List.drop_eq_nil_of_le (by omega)
  simp only [decryptData, hk, importAesKey_ok keyData hlen, htake, hdrop]

/-- Witness for C8 at the concrete empty envelope. -/
theorem c8_no_envelope_validation_witness :
    base58Decode (base58Encode (List.replicate 16 7)) = some (List.replicate 16 7)
    ∧ ((List.replicate 16 7 : List Nat).length = 16
        ∨ (List.replicate 16 7 : List Nat).length = 24
        ∨ (List.replicate 16 7 : List Nat).length = 32)
    ∧ (base64DecodeLenient "").length < 12
    ∧ (decryptData idAead cpText "" (base58Encode (List.replicate 16 7))
        = match idAead.decrypt (List.replicate 16 7) (base64DecodeLenient "") [] with
          | some pt => .ok (cpText.decode pt)
          | none => .error .aeadError) :=
  ⟨by decide, by decide, by decide,
    c8_no_envelope_validation idAead cpText "" (base58Encode (List.replicate 16 7))
      (List.replicate 16 7) (by decide) (by decide) (by decide)⟩

end SnapPwd
